import Mathlib

/-!
Verification development for the concurrent download queue manager of
`main.py` (Advanced YouTube Downloader).

The embedding is shallow and per-component:

* `Record`, `Event`, `runEvents`, `hookEvents` model `DownloadWorker.run`
  and `DownloadWorker._hook`: the worker runs the engine, which invokes the
  progress hook on a sequence of raw records and then either returns
  normally or raises; the hook raises `DownloadError("Stopped by user")`
  as soon as the stop flag is observed, and that exception propagates out
  of the engine call into the worker's `except` branch (the source comment
  on `_hook` states this propagation explicitly).  Log-only signals are
  omitted: only `progress`, `status` and `finished` signals are modelled.
* `Format`, `videoFormats`, `selectedFormatId` model the format filtering
  and sorting in `AdvancedDownloader._fetch_info_thread`.
* `SchedState` with `startQueue`, `fillWorkers`, `onProgress`, `onStatus`,
  `onFinished`, `stopAllOp` models the queue manager.  Job rows are kept in
  a list indexed by job index; the table cells mirror the job fields in the
  source, so the job list stands for both.  The per-index worker dict
  `active_workers` is an association list with dict semantics (insert
  replaces the value of an existing key in place, otherwise appends).
  Worker threads are recorded in `workers`; signal emission and consumer
  delivery are collapsed into single atomic steps of the `Step` relation,
  which serialises the interleaving of worker signals and user actions.

Python string operations are modelled on the character list: `strip()`
as dropping whitespace from both ends, `replace('%','')` as removing all
`%` characters, and `int(float(p))` as `pyFloatInt`, a truncating parser
for plain decimal literals (sign, digits, optional fractional part); on
any other input it returns `none`, matching the `except` fallback of the
source for the inputs considered here.
-/

namespace YtDl

/-- One raw progress record passed by the engine to `_hook` (`d` in the
source): the `status` phase tag and the display strings, each possibly
absent like a missing dict key. -/
structure Record where
  status : Option String
  percentStr : Option String
  speedStr : Option String
  etaStr : Option String
deriving DecidableEq

/-- A signal emitted through `WorkerSignals`: `progress`, `status` and
`finished` (index, payload).  The display-only `log` signal is omitted. -/
inductive Event where
  | progress (idx : ℕ) (percent : ℤ) (speed eta : String)
  | status (idx : ℕ) (st : String)
  | finished (idx : ℕ) (success : Bool)
deriving DecidableEq

/-- How the engine call `ydl.download([url])` ends when not aborted by the
hook: normal return or an exception with message `msg`. -/
inductive EngineEnd where
  | success
  | failure (msg : String)
deriving DecidableEq

/-- Numeric value of a digit string (most significant first). -/
def digitsVal (cs : List Char) : ℕ :=
  cs.foldl (fun a c => 10 * a + (c.toNat - 48)) 0

/-- Model of Python `int(float(p))` for plain decimal literals: optional
sign, integer digits, optional `.` and fraction digits (at least one digit
overall); the value truncates toward zero, so the fraction is dropped.
Any other shape fails (`none`), standing for the `except` branch. -/
def pyFloatInt (s : String) : Option ℤ :=
  let cs := s.toList
  let signed : ℤ × List Char :=
    match cs with
    | '-' :: t => (-1, t)
    | '+' :: t => (1, t)
    | _ => (1, cs)
  let ip := signed.2.takeWhile Char.isDigit
  let rest := signed.2.dropWhile Char.isDigit
  match rest with
  | [] => if ip.isEmpty then none else some (signed.1 * (digitsVal ip : ℤ))
  | '.' :: fp =>
      if fp.all Char.isDigit && !(ip.isEmpty && fp.isEmpty) then
        some (signed.1 * (digitsVal ip : ℤ))
      else none
  | _ => none

/-- Python `s.strip()`: whitespace removed from both ends. -/
def pyStrip (s : String) : String :=
  ⟨((s.data.dropWhile Char.isWhitespace).reverse.dropWhile Char.isWhitespace).reverse⟩

/-- Python `s.replace('%', '')`: every `%` character removed. -/
def pyDropPercent (s : String) : String :=
  ⟨s.data.filter fun c => !(c == '%')⟩

/-- The string the hook feeds to `int(float(...))`:
`d.get('_percent_str', '0.0%').strip().replace('%', '')`. -/
def percentRaw (r : Record) : String :=
  pyDropPercent (pyStrip (r.percentStr.getD "0.0%"))

/-- The percent the hook publishes: parsed value, or `0` on failure
(`except: perc = 0`). -/
def pyParsePercent (r : Record) : ℤ :=
  (pyFloatInt (percentRaw r)).getD 0

/-- `DownloadWorker._hook` on one record when the stop flag is not set:
phase `downloading` emits a progress signal then status `Downloading`;
phase `finished` emits status `Merging / finalizing`; phase `error` emits
status `Error`; anything else emits nothing. -/
def hookEvents (idx : ℕ) (r : Record) : List Event :=
  if r.status = some "downloading" then
    [Event.progress idx (pyParsePercent r) (r.speedStr.getD "0 B/s") (r.etaStr.getD "??s"),
     Event.status idx "Downloading"]
  else if r.status = some "finished" then
    [Event.status idx "Merging / finalizing"]
  else if r.status = some "error" then
    [Event.status idx "Error"]
  else []

/-- `DownloadWorker.run` as the list of signals it emits (after the initial
`Starting` status, which is modelled as a scheduler-level delivery).
`records` is the sequence of hook invocations the engine would perform,
`stopAt = some k` means the stop flag becomes true just before hook call
`k` (with `k ≥ records.length` meaning it is set only after the last hook
call but before the post-download check), `stopAt = none` means it is
never set during the run.  When the hook observes the flag (`k <
records.length`) it raises `DownloadError("Stopped by user")`, which the
engine propagates, so the worker's `except` branch runs. -/
def runEvents (idx : ℕ) (records : List Record) (stopAt : Option ℕ)
    (eEnd : EngineEnd) : List Event :=
  match stopAt with
  | some k =>
      if k < records.length then
        ((records.take k).flatMap (hookEvents idx)) ++
          [Event.status idx "Error: Stopped by user", Event.finished idx false]
      else
        match eEnd with
        | EngineEnd.success =>
            (records.flatMap (hookEvents idx)) ++
              [Event.status idx "Stopped", Event.finished idx false]
        | EngineEnd.failure msg =>
            (records.flatMap (hookEvents idx)) ++
              [Event.status idx ("Error: " ++ msg), Event.finished idx false]
  | none =>
      match eEnd with
      | EngineEnd.success =>
          (records.flatMap (hookEvents idx)) ++
            [Event.progress idx 100 "0 B/s" "0s", Event.status idx "Complete",
             Event.finished idx true]
      | EngineEnd.failure msg =>
          (records.flatMap (hookEvents idx)) ++
            [Event.status idx ("Error: " ++ msg), Event.finished idx false]

/-- A status string naming a terminal state: `Complete`, `Stopped`, or any
`Error` text (`Error`, `Error: ...`). -/
def isTerminalStatus (t : String) : Bool :=
  t == "Complete" || t == "Stopped" || List.isPrefixOf "Error".toList t.toList

/-- Whether an emitted signal is a terminal `StatusEvent`. -/
def isTerminalEvent : Event → Bool
  | Event.status _ t => isTerminalStatus t
  | _ => false

/-- The terminal `StatusEvent`s among a list of emitted signals. -/
def terminalStatusEvents (l : List Event) : List Event :=
  l.filter isTerminalEvent

/-- The records whose hook invocation actually runs to completion: all of
them, unless the stop flag aborts the run at hook call `k`. -/
def processedRecords (records : List Record) (stopAt : Option ℕ) : List Record :=
  match stopAt with
  | some k => if k < records.length then records.take k else records
  | none => records

lemma errAppend_data (m : String) :
    ("Error: " ++ m).data = 'E' :: 'r' :: 'r' :: 'o' :: 'r' :: ':' :: ' ' :: m.data := by
  cases m with
  | mk d => rfl

lemma isTerminalStatus_errAppend (m : String) :
    isTerminalStatus ("Error: " ++ m) = true := by
  cases m with
  | mk d => rfl

lemma errAppend_ne_stopped (m : String) : ("Error: " ++ m) ≠ "Stopped" := by
  cases m with
  | mk d => intro h; simpa using congrArg String.data h

lemma errAppend_ne_complete (m : String) : ("Error: " ++ m) ≠ "Complete" := by
  cases m with
  | mk d => intro h; simpa using congrArg String.data h

lemma errAppend_ne_queued (m : String) : ("Error: " ++ m) ≠ "Queued" := by
  cases m with
  | mk d => intro h; simpa using congrArg String.data h

/-- The terminal `StatusEvent`s a single hook invocation contributes:
exactly one `Error` status for an `error`-phase record, none otherwise. -/
lemma terminalStatusEvents_hook (idx : ℕ) (r : Record) :
    terminalStatusEvents (hookEvents idx r) =
      if r.status = some "error" then [Event.status idx "Error"] else [] := by
  unfold hookEvents
  by_cases h1 : r.status = some "downloading"
  · rw [if_pos h1, if_neg (show ¬r.status = some "error" by rw [h1]; decide)]
    rfl
  · rw [if_neg h1]
    by_cases h2 : r.status = some "finished"
    · rw [if_pos h2, if_neg (show ¬r.status = some "error" by rw [h2]; decide)]
      rfl
    · rw [if_neg h2]
      by_cases h3 : r.status = some "error"
      · rw [if_pos h3]
        rfl
      · rw [if_neg h3]
        rfl

lemma terminalStatusEvents_append (l₁ l₂ : List Event) :
    terminalStatusEvents (l₁ ++ l₂) =
      terminalStatusEvents l₁ ++ terminalStatusEvents l₂ := by
  unfold terminalStatusEvents
  exact List.filter_append _ _

/-- Terminal `StatusEvent` count contributed by a sequence of completed
hook invocations: one per `error`-phase record. -/
lemma terminalStatusEvents_flatMap_length (idx : ℕ) (l : List Record) :
    (terminalStatusEvents (l.flatMap (hookEvents idx))).length =
      (l.filter fun r => r.status == some "error").length := by
  induction l with
  | nil => rfl
  | cons r t ih =>
    rw [List.flatMap_cons, terminalStatusEvents_append, List.length_append, ih,
      terminalStatusEvents_hook]
    by_cases hr : r.status = some "error"
    · simp [hr, List.filter_cons]
      omega
    · simp [hr, List.filter_cons]

/-- Which status strings a completed hook invocation can publish. -/
lemma mem_hookEvents_status (idx i : ℕ) (t : String) (r : Record)
    (h : Event.status i t ∈ hookEvents idx r) :
    t = "Downloading" ∨ t = "Merging / finalizing" ∨ t = "Error" := by
  unfold hookEvents at h
  split_ifs at h <;> simp_all

lemma not_mem_flatMap_hook (idx i : ℕ) (t : String) (h1 : t ≠ "Downloading")
    (h2 : t ≠ "Merging / finalizing") (h3 : t ≠ "Error") (l : List Record) :
    Event.status i t ∉ l.flatMap (hookEvents idx) := by
  intro h
  rw [List.mem_flatMap] at h
  obtain ⟨r, _, hr⟩ := h
  rcases mem_hookEvents_status idx i t r hr with h | h | h
  · exact h1 h
  · exact h2 h
  · exact h3 h

/-- With a cancellation request pending at any point of the run, the
`Complete` status is never published. -/
lemma worker_no_complete_aux (idx : ℕ) (records : List Record) (k : ℕ)
    (eEnd : EngineEnd) :
    Event.status idx "Complete" ∉ runEvents idx records (some k) eEnd := by
  simp only [runEvents]
  by_cases hk : k < records.length
  · rw [if_pos hk]
    intro h
    rcases List.mem_append.1 h with h | h
    · exact absurd h (not_mem_flatMap_hook idx idx _ (by decide) (by decide) (by decide) _)
    · simp at h
  · rw [if_neg hk]
    cases eEnd with
    | success =>
        intro h
        rcases List.mem_append.1 h with h | h
        · exact absurd h (not_mem_flatMap_hook idx idx _ (by decide) (by decide) (by decide) _)
        · simp at h
    | failure msg =>
        intro h
        rcases List.mem_append.1 h with h | h
        · exact absurd h (not_mem_flatMap_hook idx idx _ (by decide) (by decide) (by decide) _)
        · simp at h
          exact errAppend_ne_complete msg h.symm

/-- Claim C2 (amended): on engine completion the worker publishes
`Complete` iff no cancellation was requested and the engine succeeded;
`Stopped` iff cancellation was requested but the engine call still
returned normally (the flag was set only after the last hook invocation);
and whenever the hook observes the stop request mid-run it aborts via its
own raised exception, which the worker's `except` branch reports as the
terminal status `Error: Stopped by user` — the code does not classify the
failure by whether it originated from the callback's own abort signal. -/
theorem worker_stop_status_characterization (idx : ℕ) (records : List Record)
    (k : ℕ) (eEnd : EngineEnd) :
    (Event.status idx "Stopped" ∈ runEvents idx records (some k) eEnd ↔
        records.length ≤ k ∧ eEnd = EngineEnd.success) ∧
    Event.status idx "Complete" ∉ runEvents idx records (some k) eEnd ∧
    (k < records.length →
        Event.status idx "Error: Stopped by user" ∈
          runEvents idx records (some k) eEnd) := by
  refine ⟨?_, worker_no_complete_aux idx records k eEnd, ?_⟩
  · simp only [runEvents]
    by_cases hk : k < records.length
    · rw [if_pos hk]
      constructor
      · intro h
        rcases List.mem_append.1 h with h | h
        · exact absurd h (not_mem_flatMap_hook idx idx _ (by decide) (by decide) (by decide) _)
        · simp at h
      · rintro ⟨hlen, -⟩
        exact absurd hk (Nat.not_lt.2 hlen)
    · rw [if_neg hk]
      have hlen : records.length ≤ k := Nat.le_of_not_lt hk
      cases eEnd with
      | success =>
          constructor
          · intro _
            exact ⟨hlen, rfl⟩
          · intro _
            exact List.mem_append.2 (Or.inr (by simp))
      | failure msg =>
          constructor
          · intro h
            rcases List.mem_append.1 h with h | h
            · exact absurd h
                (not_mem_flatMap_hook idx idx _ (by decide) (by decide) (by decide) _)
            · exfalso
              simp at h
              exact errAppend_ne_stopped msg h.symm
          · rintro ⟨-, h⟩
            cases h
  · intro hk
    simp only [runEvents]
    rw [if_pos hk]
    exact List.mem_append.2 (Or.inr (by simp))

/-- Hook sequence for the C2 counterexample: two `downloading` records,
with the stop flag set after the first hook call. -/
def ceStopRecords : List Record :=
  [⟨some "downloading", some " 10.0%", none, none⟩,
   ⟨some "downloading", some " 55.0%", none, none⟩]

/-- Claim C2 counterexample: a stop request observed while downloading
makes the hook abort, and the terminal status published by the worker is
`Error: Stopped by user`, not `Stopped`. -/
theorem stop_during_download_error_ce :
    runEvents 0 ceStopRecords (some 1) EngineEnd.success =
      [Event.progress 0 10 "0 B/s" "??s", Event.status 0 "Downloading",
       Event.status 0 "Error: Stopped by user", Event.finished 0 false] ∧
    Event.status 0 "Stopped" ∉ runEvents 0 ceStopRecords (some 1) EngineEnd.success := by
  exact ⟨rfl, by decide⟩

/-- Witness for C2: applies the characterization at a concrete run. -/
theorem worker_stop_status_characterization_witness :
    Event.status 0 "Error: Stopped by user" ∈
      runEvents 0 ceStopRecords (some 1) EngineEnd.success :=
  (worker_stop_status_characterization 0 ceStopRecords 1 EngineEnd.success).2.2
    (by decide)

/-- Claim C3 (amended): for a `downloading` record the published percent is
the truncated parse of the raw percent string with no clamping (values
outside `[0, 100]` pass through unchanged), and an unparseable or missing
percent publishes the constant `0`, not the job's last known value. -/
theorem hook_percent_passthrough (idx : ℕ) (r : Record)
    (hd : r.status = some "downloading") :
    (∀ v : ℤ, pyFloatInt (percentRaw r) = some v →
        Event.progress idx v (r.speedStr.getD "0 B/s") (r.etaStr.getD "??s") ∈
          hookEvents idx r) ∧
    (pyFloatInt (percentRaw r) = none →
        Event.progress idx 0 (r.speedStr.getD "0 B/s") (r.etaStr.getD "??s") ∈
          hookEvents idx r) := by
  unfold hookEvents
  rw [if_pos hd]
  constructor
  · intro v hv
    simp [pyParsePercent, hv]
  · intro hv
    simp [pyParsePercent, hv]

/-- Witness for C3: a raw record reporting `150.0%` publishes percent 150. -/
theorem hook_percent_passthrough_witness :
    Event.progress 0 150 "0 B/s" "??s" ∈
      hookEvents 0 ⟨some "downloading", some " 150.0%", none, none⟩ :=
  (hook_percent_passthrough 0 ⟨some "downloading", some " 150.0%", none, none⟩ rfl).1
    150 (by decide)

/-- Claim C3 counterexample: percent `150.0%` is published as 150, outside
`[0, 100]`, and a non-numeric percent is published as the constant 0. -/
theorem hook_percent_unclamped_ce :
    hookEvents 0 ⟨some "downloading", some " 150.0%", none, none⟩ =
      [Event.progress 0 150 "0 B/s" "??s", Event.status 0 "Downloading"] ∧
    ¬((150 : ℤ) ≤ 100) ∧
    hookEvents 0 ⟨some "downloading", some "n/a", none, none⟩ =
      [Event.progress 0 0 "0 B/s" "??s", Event.status 0 "Downloading"] :=
  ⟨rfl, by decide, rfl⟩

/-- One terminal status in the abort epilogue. -/
lemma tse_abort_epilogue_len (idx : ℕ) :
    (terminalStatusEvents
        [Event.status idx "Error: Stopped by user", Event.finished idx false]).length = 1 := rfl

/-- One terminal status in the stopped epilogue. -/
lemma tse_stop_epilogue_len (idx : ℕ) :
    (terminalStatusEvents
        [Event.status idx "Stopped", Event.finished idx false]).length = 1 := rfl

/-- One terminal status in the success epilogue. -/
lemma tse_complete_epilogue_len (idx : ℕ) :
    (terminalStatusEvents
        [Event.progress idx 100 "0 B/s" "0s", Event.status idx "Complete",
         Event.finished idx true]).length = 1 := rfl

/-- One terminal status in the failure epilogue. -/
lemma tse_err_epilogue_len (idx : ℕ) (msg : String) :
    (terminalStatusEvents
        [Event.status idx ("Error: " ++ msg), Event.finished idx false]).length = 1 := by
  unfold terminalStatusEvents
  rw [List.filter_cons_of_pos]
  · rfl
  · exact isTerminalStatus_errAppend msg

/-- Claim C4 (amended): every worker run publishes exactly one terminal
`StatusEvent` from its completion branch, plus one extra `Error`
`StatusEvent` for every `error`-phase record the hook processes before the
engine call ends — so the total is `1 + #error-phase records`, which
exceeds one exactly when the engine reports an error phase through the
progress callback. -/
theorem terminal_status_event_count (idx : ℕ) (records : List Record)
    (stopAt : Option ℕ) (eEnd : EngineEnd) :
    (terminalStatusEvents (runEvents idx records stopAt eEnd)).length =
      1 + ((processedRecords records stopAt).filter fun r =>
            r.status == some "error").length := by
  cases stopAt with
  | some k =>
      simp only [runEvents, processedRecords]
      by_cases hk : k < records.length
      · rw [if_pos hk, if_pos hk, terminalStatusEvents_append, List.length_append,
          terminalStatusEvents_flatMap_length, tse_abort_epilogue_len]
        omega
      · rw [if_neg hk, if_neg hk]
        cases eEnd with
        | success =>
            rw [terminalStatusEvents_append, List.length_append,
              terminalStatusEvents_flatMap_length, tse_stop_epilogue_len]
            omega
        | failure msg =>
            rw [terminalStatusEvents_append, List.length_append,
              terminalStatusEvents_flatMap_length, tse_err_epilogue_len]
            omega
  | none =>
      simp only [runEvents, processedRecords]
      cases eEnd with
      | success =>
          rw [terminalStatusEvents_append, List.length_append,
            terminalStatusEvents_flatMap_length, tse_complete_epilogue_len]
          omega
      | failure msg =>
          rw [terminalStatusEvents_append, List.length_append,
            terminalStatusEvents_flatMap_length, tse_err_epilogue_len]
          omega

/-- Claim C4 counterexample: an `error`-phase record followed by a
successful engine return yields two terminal `StatusEvent`s in one run. -/
theorem double_terminal_status_ce :
    terminalStatusEvents
        (runEvents 0 [⟨some "error", none, none, none⟩] none EngineEnd.success) =
      [Event.status 0 "Error", Event.status 0 "Complete"] := rfl

/-- Claim C10: whenever a run publishes the terminal `Complete` status, the
whole event list ends with a `ProgressEvent` at percent exactly 100
immediately followed by the `Complete` status and the finished signal. -/
theorem complete_preceded_by_full_progress (idx : ℕ) (records : List Record)
    (stopAt : Option ℕ) (eEnd : EngineEnd)
    (h : Event.status idx "Complete" ∈ runEvents idx records stopAt eEnd) :
    runEvents idx records stopAt eEnd =
      (records.flatMap (hookEvents idx)) ++
        [Event.progress idx 100 "0 B/s" "0s", Event.status idx "Complete",
         Event.finished idx true] := by
  cases stopAt with
  | some k =>
      exact absurd h (worker_no_complete_aux idx records k eEnd)
  | none =>
      cases eEnd with
      | success => rfl
      | failure msg =>
          exfalso
          simp only [runEvents] at h
          rcases List.mem_append.1 h with h | h
          · exact absurd h (not_mem_flatMap_hook idx idx _ (by decide) (by decide) (by decide) _)
          · simp at h
            exact errAppend_ne_complete msg h.symm

/-- Witness for C10: a run with no hook records, no stop, and success. -/
theorem complete_preceded_by_full_progress_witness :
    runEvents 0 [] none EngineEnd.success =
      ([] : List Record).flatMap (hookEvents 0) ++
        [Event.progress 0 100 "0 B/s" "0s", Event.status 0 "Complete",
         Event.finished 0 true] :=
  complete_preceded_by_full_progress 0 [] none EngineEnd.success (by decide)

/-- One entry of the engine's `formats` list, restricted to the keys the
source reads: `format_id`, `vcodec`, `height`, `ext`; each may be absent. -/
structure Format where
  format_id : Option String
  vcodec : Option String
  height : Option ℕ
  ext : Option String
deriving DecidableEq

/-- Python truthiness of `f.get('height')`: present and nonzero. -/
def truthyHeight : Option ℕ → Bool
  | none => false
  | some h => h != 0

/-- The sort key `(x.get('height') or 0, x.get('ext') or '')`. -/
def fmtKey (f : Format) : ℕ × String :=
  (f.height.getD 0, f.ext.getD "")

/-- Python string comparison on code points, on the character lists:
`charListLe as bs` is `as <= bs` lexicographically. -/
def charListLe : List Char → List Char → Bool
  | [], _ => true
  | _ :: _, [] => false
  | a :: as, b :: bs =>
      if a.toNat = b.toNat then charListLe as bs else decide (a.toNat < b.toNat)

/-- Python `a <= b` on strings. -/
def pyStrLe (a b : String) : Bool := charListLe a.toList b.toList

lemma charListLe_refl : ∀ as : List Char, charListLe as as = true := by
  intro as
  induction as with
  | nil => rfl
  | cons a as ih =>
      simp only [charListLe]
      simpa using ih

lemma charListLe_total : ∀ as bs : List Char,
    charListLe as bs = true ∨ charListLe bs as = true := by
  intro as
  induction as with
  | nil => exact fun bs => Or.inl rfl
  | cons a as ih =>
      intro bs
      cases bs with
      | nil => exact Or.inr rfl
      | cons b bs =>
          simp only [charListLe]
          by_cases heq : a.toNat = b.toNat
          · rcases ih bs with h | h
            · left
              rw [if_pos heq]
              exact h
            · right
              rw [if_pos heq.symm]
              exact h
          · rcases Nat.lt_or_ge a.toNat b.toNat with h | h
            · left
              rw [if_neg heq]
              exact decide_eq_true h
            · have h2 : b.toNat < a.toNat := Nat.lt_of_le_of_ne h fun e => heq e.symm
              right
              rw [if_neg fun e => heq e.symm]
              exact decide_eq_true h2

lemma charListLe_trans : ∀ as bs cs : List Char, charListLe as bs = true →
    charListLe bs cs = true → charListLe as cs = true := by
  intro as
  induction as with
  | nil => intro bs cs _ _; rfl
  | cons a as ih =>
      intro bs cs h1 h2
      cases bs with
      | nil => simp [charListLe] at h1
      | cons b bs =>
          cases cs with
          | nil => simp [charListLe] at h2
          | cons c cs =>
              simp only [charListLe] at h1 h2 ⊢
              by_cases hab : a.toNat = b.toNat
              · rw [if_pos hab] at h1
                by_cases hbc : b.toNat = c.toNat
                · rw [if_pos hbc] at h2
                  rw [if_pos (hab.trans hbc)]
                  exact ih bs cs h1 h2
                · rw [if_neg hbc] at h2
                  have hlt : b.toNat < c.toNat := of_decide_eq_true h2
                  rw [if_neg (by omega)]
                  exact decide_eq_true (by omega)
              · rw [if_neg hab] at h1
                have hlt : a.toNat < b.toNat := of_decide_eq_true h1
                by_cases hbc : b.toNat = c.toNat
                · rw [if_neg (by omega)]
                  exact decide_eq_true (by omega)
                · rw [if_neg hbc] at h2
                  have hlt2 : b.toNat < c.toNat := of_decide_eq_true h2
                  rw [if_neg (by omega)]
                  exact decide_eq_true (by omega)

/-- Lexicographic order on Python `(int, str)` tuples. -/
def tupLe (a b : ℕ × String) : Prop :=
  a.1 < b.1 ∨ (a.1 = b.1 ∧ pyStrLe a.2 b.2 = true)

instance : DecidableRel tupLe := fun _ _ => inferInstanceAs (Decidable (_ ∨ _))

lemma tupLe_refl (a : ℕ × String) : tupLe a a :=
  Or.inr ⟨rfl, charListLe_refl _⟩

lemma tupLe_total (a b : ℕ × String) : tupLe a b ∨ tupLe b a := by
  rcases Nat.lt_trichotomy a.1 b.1 with h | h | h
  · exact Or.inl (Or.inl h)
  · rcases charListLe_total a.2.toList b.2.toList with h2 | h2
    · exact Or.inl (Or.inr ⟨h, h2⟩)
    · exact Or.inr (Or.inr ⟨h.symm, h2⟩)
  · exact Or.inr (Or.inl h)

lemma tupLe_trans (a b c : ℕ × String) (hab : tupLe a b) (hbc : tupLe b c) :
    tupLe a c := by
  rcases hab with h | ⟨h, h2⟩
  · rcases hbc with g | ⟨g, g2⟩
    · exact Or.inl (h.trans g)
    · exact Or.inl (g ▸ h)
  · rcases hbc with g | ⟨g, g2⟩
    · exact Or.inl (h ▸ g)
    · exact Or.inr ⟨h.trans g, charListLe_trans _ _ _ h2 g2⟩

/-- `sorted(..., key=..., reverse=True)` places `a` before `b` when `b`'s
key is at most `a`'s key; a stable insertion sort with this total relation
computes the same list as Python's stable descending sort. -/
def fmtRel (a b : Format) : Prop := tupLe (fmtKey b) (fmtKey a)

instance : DecidableRel fmtRel := fun _ _ => inferInstanceAs (Decidable (tupLe _ _))

instance : IsTotal Format fmtRel := ⟨fun a b => tupLe_total (fmtKey b) (fmtKey a)⟩

instance : IsTrans Format fmtRel :=
  ⟨fun _ _ _ hab hbc => tupLe_trans _ _ _ hbc hab⟩

/-- `video_formats` in `_fetch_info_thread`: keep entries whose `vcodec` is
not the string `none` and whose height is truthy, then sort by
`(height or 0, ext or '')` descending (`reverse=True`). -/
def videoFormats (fmts : List Format) : List Format :=
  List.insertionSort fmtRel
    (fmts.filter fun f => !(f.vcodec == some "none") && truthyHeight f.height)

/-- `job.selected_format_id`: the head of `video_formats` when nonempty,
otherwise it keeps its `None` default. -/
def selectedFormatId (fmts : List Format) : Option String :=
  match videoFormats fmts with
  | [] => none
  | f :: _ => f.format_id

/-- Claim C5 (amended): the populated variants are the filtered formats
sorted by descending height with ties broken by *descending* (not
ascending) extension name — pairwise, each later element's key is at most
the earlier one's — the sequence is a permutation of the filtered input,
and the default selected variant is the head, a variant of maximal key
(hence of highest height). -/
theorem variants_sorted_descending (fmts : List Format) :
    List.Sorted fmtRel (videoFormats fmts) ∧
    (videoFormats fmts).Perm
      (fmts.filter fun f => !(f.vcodec == some "none") && truthyHeight f.height) ∧
    (∀ g f0 t, videoFormats fmts = f0 :: t → g ∈ videoFormats fmts →
        tupLe (fmtKey g) (fmtKey f0) ∧ selectedFormatId fmts = f0.format_id) := by
  refine ⟨List.sorted_insertionSort _ _, List.perm_insertionSort _ _, ?_⟩
  intro g f0 t heq hg
  constructor
  · have hs : List.Sorted fmtRel (videoFormats fmts) := List.sorted_insertionSort _ _
    rw [heq] at hs hg
    rcases List.mem_cons.1 hg with rfl | hg
    · exact tupLe_refl _
    · exact (List.sorted_cons.1 hs).1 g hg
  · unfold selectedFormatId
    rw [heq]

/-- A 720p `m4a` variant and a 720p `mp4` variant (equal heights). -/
def fmtM4a : Format := ⟨some "136", some "avc1", some 720, some "m4a"⟩

/-- See `fmtM4a`. -/
def fmtMp4 : Format := ⟨some "137", some "avc1", some 720, some "mp4"⟩

/-- Witness for C5: applied to the two-variant list, the head of the
sorted sequence is the `mp4` variant and its id is selected. -/
theorem variants_sorted_descending_witness :
    tupLe (fmtKey fmtM4a) (fmtKey fmtMp4) ∧
      selectedFormatId [fmtM4a, fmtMp4] = some "137" := by
  have h := (variants_sorted_descending [fmtM4a, fmtMp4]).2.2 fmtM4a fmtMp4 [fmtM4a]
    (by decide) (by decide)
  exact ⟨h.1, h.2⟩

/-- The order the claim asserts: strictly descending height with ties
broken by ascending extension name. -/
def claimAscRel (a b : Format) : Prop :=
  b.height.getD 0 < a.height.getD 0 ∨
    (a.height.getD 0 = b.height.getD 0 ∧ pyStrLe (a.ext.getD "") (b.ext.getD "") = true)

instance : DecidableRel claimAscRel := fun _ _ => inferInstanceAs (Decidable (_ ∨ _))

/-- Claim C5 counterexample: with two 720p variants of extensions `m4a`
and `mp4`, `reverse=True` sorts the whole key tuple descending, so `mp4`
comes first — the tie is broken by descending, not ascending, extension
name, and the claimed order does not hold between the two elements. -/
theorem variants_tie_order_ce :
    videoFormats [fmtM4a, fmtMp4] = [fmtMp4, fmtM4a] ∧
      ¬claimAscRel fmtMp4 fmtM4a := by
  exact ⟨by decide, by decide⟩

/-- One `DownloadJob` as the consumer sees it: the `status` string and the
display fields the progress handler writes.  The immutable request fields
(url, formats, flags) play no role in the queue-manager claims. -/
structure JobRec where
  status : String
  progress : ℤ
  speed : Option String
  eta : Option String
deriving DecidableEq

/-- A newly created job: `status = "Queued"`, `progress = 0`. -/
def freshJob : JobRec := ⟨"Queued", 0, none, none⟩

/-- One `DownloadWorker` thread: its spawn id, the job index it is bound
to, its `_stop_requested` flag, and whether its `run` has ended. -/
structure Worker where
  wid : ℕ
  idx : ℕ
  stopRequested : Bool
  done : Bool
deriving DecidableEq

/-- The queue-manager state: `jobs` (`self.jobs`, with table rows mirrored
by the job fields), `pending` (`self.queue`, FIFO), `active`
(`self.active_workers`, a dict from job index to the registered worker's
id), `workers` (every spawned worker thread), and `nextW` (fresh worker
ids). -/
structure SchedState where
  jobs : List JobRec
  pending : List ℕ
  active : List (ℕ × ℕ)
  workers : List Worker
  nextW : ℕ
deriving DecidableEq

/-- The state at window construction: no jobs, empty queue, no workers. -/
def initState : SchedState := ⟨[], [], [], [], 0⟩

/-- Apply `f` to the list entry at position `i` (no-op out of range). -/
def updJob (f : JobRec → JobRec) : ℕ → List JobRec → List JobRec
  | _, [] => []
  | 0, j :: t => f j :: t
  | n + 1, j :: t => j :: updJob f n t

/-- Python dict assignment `d[k] = v`: replace the value of an existing
key in place, otherwise append the binding. -/
def dictInsert : List (ℕ × ℕ) → ℕ → ℕ → List (ℕ × ℕ)
  | [], k, v => [(k, v)]
  | (k', v') :: t, k, v =>
      if k' = k then (k, v) :: t else (k', v') :: dictInsert t k v

/-- Python `if k in d: del d[k]`: drop the binding of `k` if present. -/
def eraseKey : List (ℕ × ℕ) → ℕ → List (ℕ × ℕ)
  | [], _ => []
  | (k', v') :: t, k => if k' = k then t else (k', v') :: eraseKey t k

/-- The `_fill_workers` loop with explicit fuel: while the active dict is
smaller than the limit and the queue is non-empty, pop the head index,
register a fresh worker under that index (dict assignment), set the job's
status to `Starting`, and continue.  The fuel is the initial queue length,
which bounds the iteration count since every iteration pops one entry. -/
def fillGo (limit : ℕ) : ℕ → SchedState → SchedState
  | 0, s => s
  | fuel + 1, s =>
      if s.active.length < limit then
        match s.pending with
        | [] => s
        | i :: rest =>
            fillGo limit fuel
              { s with
                pending := rest,
                active := dictInsert s.active i s.nextW,
                workers := s.workers ++ [⟨s.nextW, i, false, false⟩],
                nextW := s.nextW + 1,
                jobs := updJob (fun j => { j with status := "Starting" }) i s.jobs }
      else s

/-- `AdvancedDownloader._fill_workers`. -/
def fillWorkers (limit : ℕ) (s : SchedState) : SchedState :=
  fillGo limit s.pending.length s

/-- The job indices `fillGo` admits, in admission order. -/
def fillGoAdmits (limit : ℕ) : ℕ → SchedState → List ℕ
  | 0, _ => []
  | fuel + 1, s =>
      if s.active.length < limit then
        match s.pending with
        | [] => []
        | i :: rest =>
            i :: fillGoAdmits limit fuel
              { s with
                pending := rest,
                active := dictInsert s.active i s.nextW,
                workers := s.workers ++ [⟨s.nextW, i, false, false⟩],
                nextW := s.nextW + 1,
                jobs := updJob (fun j => { j with status := "Starting" }) i s.jobs }
      else []

/-- The job indices one `_fill_workers` call admits, in admission order. -/
def fillAdmits (limit : ℕ) (s : SchedState) : List ℕ :=
  fillGoAdmits limit s.pending.length s

/-- One iteration of the `start_queue` enqueue loop over `enumerate(jobs)`:
a job whose status is exactly `Queued`, `Stopped` or `Error` is reset to
`Queued` and its index appended to the pending queue. -/
def enqStep (acc : List JobRec × List ℕ) (p : ℕ × JobRec) : List JobRec × List ℕ :=
  if p.2.status == "Queued" || p.2.status == "Stopped" || p.2.status == "Error" then
    (acc.1 ++ [{ p.2 with status := "Queued" }], acc.2 ++ [p.1])
  else (acc.1 ++ [p.2], acc.2)

/-- The enqueue phase of `start_queue` (before `_fill_workers`). -/
def enqueuePass (s : SchedState) : SchedState :=
  let r := s.jobs.enum.foldl enqStep ([], s.pending)
  { s with jobs := r.1, pending := r.2 }

/-- `AdvancedDownloader.start_queue`: enqueue eligible jobs, then fill. -/
def startQueue (limit : ℕ) (s : SchedState) : SchedState :=
  fillWorkers limit (enqueuePass s)

/-- `AdvancedDownloader.on_progress`: guarded by `0 <= index < len(jobs)`
(indices are naturals here, so only the upper bound is modelled); updates
the job's progress fields and the mirrored table cells. -/
def onProgress (i : ℕ) (perc : ℤ) (sp et : String) (s : SchedState) : SchedState :=
  let f : JobRec → JobRec :=
    fun j => { j with progress := perc, speed := some sp, eta := some et }
  if i < s.jobs.length then { s with jobs := updJob f i s.jobs } else s

/-- `AdvancedDownloader.on_status`: guarded the same way; sets the status
string and the mirrored table cell. -/
def onStatus (i : ℕ) (st : String) (s : SchedState) : SchedState :=
  if i < s.jobs.length then
    { s with jobs := updJob (fun j => { j with status := st }) i s.jobs }
  else s

/-- The first half of `AdvancedDownloader.on_finished`: delete the index
from the active dict (if present) and, when the index is in range, set the
job status to `Complete` or `Failed/Stopped`. -/
def onFinishedPre (i : ℕ) (success : Bool) (s : SchedState) : SchedState :=
  let f : JobRec → JobRec :=
    fun j => { j with status := if success then "Complete" else "Failed/Stopped" }
  let s1 : SchedState := { s with active := eraseKey s.active i }
  if i < s1.jobs.length then { s1 with jobs := updJob f i s1.jobs } else s1

/-- `AdvancedDownloader.on_finished`: the cleanup and status overwrite of
`onFinishedPre`, then an admission pass. -/
def onFinished (limit : ℕ) (i : ℕ) (success : Bool) (s : SchedState) : SchedState :=
  fillWorkers limit (onFinishedPre i success s)

/-- `AdvancedDownloader.stop_all`: set the stop flag of every worker
currently registered in the active dict. -/
def stopAllOp (s : SchedState) : SchedState :=
  { s with workers := s.workers.map fun w =>
      if s.active.lookup w.idx = some w.wid then { w with stopRequested := true } else w }

/-- `_fetch_info_thread` appending one fetched job to `self.jobs`. -/
def addJob (s : SchedState) : SchedState :=
  { s with jobs := s.jobs ++ [freshJob] }

/-- A worker thread exiting `run`: it emits nothing afterwards. -/
def markDone (wid : ℕ) (s : SchedState) : SchedState :=
  { s with workers := s.workers.map fun w =>
      if w.wid = wid then { w with done := true } else w }

/-- Consumer-side effect of a hook `downloading` record from worker `w`:
the progress signal then the `Downloading` status signal. -/
def deliverDownloading (w : Worker) (perc : ℤ) (sp et : String) (s : SchedState) :
    SchedState :=
  onStatus w.idx "Downloading" (onProgress w.idx perc sp et s)

/-- Consumer-side effect of the end of a successful, uncancelled run:
progress 100, status `Complete`, then the finished signal. -/
def deliverComplete (limit : ℕ) (w : Worker) (s : SchedState) : SchedState :=
  markDone w.wid
    (onFinished limit w.idx true
      (onStatus w.idx "Complete" (onProgress w.idx 100 "0 B/s" "0s" s)))

/-- Consumer-side effect of a run that returned normally with the stop
flag set: status `Stopped`, then the finished signal. -/
def deliverStopped (limit : ℕ) (w : Worker) (s : SchedState) : SchedState :=
  markDone w.wid (onFinished limit w.idx false (onStatus w.idx "Stopped" s))

/-- Consumer-side effect of a run ending in the `except` branch: status
`Error: msg`, then the finished signal. -/
def deliverErrorEnd (limit : ℕ) (w : Worker) (msg : String) (s : SchedState) :
    SchedState :=
  markDone w.wid (onFinished limit w.idx false (onStatus w.idx ("Error: " ++ msg) s))

/-- One atomic step of the system at a fixed concurrency `limit`: a user
action (`add`, `start`, `stopAll`), the periodic fill-check timer, or the
delivery of one worker signal batch.  Worker steps are guarded by the
emitting worker being spawned and not yet finished; a hook-driven emission
additionally requires its stop flag to be unset (otherwise the hook raises
instead of emitting), and the `Stopped` ending requires it set. -/
inductive Step (limit : ℕ) : SchedState → SchedState → Prop
  | add (s : SchedState) : Step limit s (addJob s)
  | start (s : SchedState) : Step limit s (startQueue limit s)
  | timer (s : SchedState) (h : s.pending ≠ []) : Step limit s (fillWorkers limit s)
  | stopAll (s : SchedState) : Step limit s (stopAllOp s)
  | starting (s : SchedState) (w : Worker) (hw : w ∈ s.workers) (hd : w.done = false) :
      Step limit s (onStatus w.idx "Starting" s)
  | downloading (s : SchedState) (w : Worker) (hw : w ∈ s.workers)
      (hd : w.done = false) (hs : w.stopRequested = false) (perc : ℤ) (sp et : String) :
      Step limit s (deliverDownloading w perc sp et s)
  | mergingPhase (s : SchedState) (w : Worker) (hw : w ∈ s.workers)
      (hd : w.done = false) (hs : w.stopRequested = false) :
      Step limit s (onStatus w.idx "Merging / finalizing" s)
  | errorPhase (s : SchedState) (w : Worker) (hw : w ∈ s.workers)
      (hd : w.done = false) (hs : w.stopRequested = false) :
      Step limit s (onStatus w.idx "Error" s)
  | completeEnd (s : SchedState) (w : Worker) (hw : w ∈ s.workers)
      (hd : w.done = false) (hs : w.stopRequested = false) :
      Step limit s (deliverComplete limit w s)
  | stoppedEnd (s : SchedState) (w : Worker) (hw : w ∈ s.workers)
      (hd : w.done = false) (hs : w.stopRequested = true) :
      Step limit s (deliverStopped limit w s)
  | errorEnd (s : SchedState) (w : Worker) (hw : w ∈ s.workers)
      (hd : w.done = false) (msg : String) :
      Step limit s (deliverErrorEnd limit w msg s)

/-- States reachable from the initial state at a fixed concurrency. -/
def reachable (limit : ℕ) (s : SchedState) : Prop :=
  Relation.ReflTransGen (Step limit) initState s

/-- The number of jobs whose status is one of the non-terminal running
states `Starting`, `Downloading`, `Merging / finalizing`. -/
def runningCount (s : SchedState) : ℕ :=
  (s.jobs.filter fun j =>
    j.status == "Starting" || j.status == "Downloading" ||
      j.status == "Merging / finalizing").length

/-- The status of job `i`, if it exists. -/
def statusAt (s : SchedState) (i : ℕ) : Option String :=
  (s.jobs.get? i).map JobRec.status

/-- All job statuses in index order. -/
def statusesOf (s : SchedState) : List String :=
  s.jobs.map JobRec.status

/-- Whether `start_queue` (re-)enqueues a job: its status is exactly
`Queued`, `Stopped` or `Error`. -/
def reEnqueueable (j : JobRec) : Bool :=
  j.status == "Queued" || j.status == "Stopped" || j.status == "Error"

lemma enqStep_eq (acc : List JobRec × List ℕ) (p : ℕ × JobRec) :
    enqStep acc p =
      if reEnqueueable p.2 then
        (acc.1 ++ [{ p.2 with status := "Queued" }], acc.2 ++ [p.1])
      else (acc.1 ++ [p.2], acc.2) := rfl

/-- The enqueue loop appends exactly the indices of re-enqueueable jobs,
in job-list order, to the tail of the existing queue. -/
lemma enq_foldl_snd : ∀ (l : List (ℕ × JobRec)) (acc : List JobRec × List ℕ),
    (l.foldl enqStep acc).2 =
      acc.2 ++ (l.filter fun p => reEnqueueable p.2).map Prod.fst := by
  intro l
  induction l with
  | nil => intro acc; simp
  | cons p t ih =>
      intro acc
      rw [List.foldl_cons, ih, enqStep_eq]
      by_cases hc : reEnqueueable p.2
      · simp [hc, List.filter_cons]
      · simp [hc, List.filter_cons]

/-- `_fill_workers` admits a prefix of the pending queue, in queue order,
and leaves the rest of the queue. -/
lemma fillGo_spec (limit : ℕ) : ∀ (fuel : ℕ) (s : SchedState),
    fillGoAdmits limit fuel s = s.pending.take (fillGoAdmits limit fuel s).length ∧
    (fillGo limit fuel s).pending = s.pending.drop (fillGoAdmits limit fuel s).length := by
  intro fuel
  induction fuel with
  | zero => intro s; exact ⟨rfl, rfl⟩
  | succ n ih =>
      intro s
      simp only [fillGo, fillGoAdmits]
      by_cases hl : s.active.length < limit
      · rw [if_pos hl, if_pos hl]
        cases hp : s.pending with
        | nil => simp [hp]
        | cons a rest =>
            constructor
            · simp only [List.length_cons, List.take_succ_cons]
              exact congrArg (a :: ·) (ih _).1
            · simp only [List.length_cons, List.drop_succ_cons]
              exact (ih _).2
      · rw [if_neg hl, if_neg hl]
        simp

/-- Claim C6: the pending queue is FIFO.  `start_queue` appends the
(re-)enqueued indices at the tail, after every entry already pending, and
`_fill_workers` admits exactly a prefix of the pending queue in queue
order, leaving the suffix pending — so an already-pending entry is always
admitted before any entry enqueued later, and a job re-enqueued from
`Stopped` or `Error` never jumps ahead. -/
theorem fifo_admission_and_tail_enqueue (limit : ℕ) (s : SchedState) :
    (enqueuePass s).pending =
      s.pending ++ (s.jobs.enum.filter fun p => reEnqueueable p.2).map Prod.fst ∧
    fillAdmits limit s = s.pending.take (fillAdmits limit s).length ∧
    (fillWorkers limit s).pending = s.pending.drop (fillAdmits limit s).length := by
  refine ⟨?_, (fillGo_spec limit _ s).1, (fillGo_spec limit _ s).2⟩
  unfold enqueuePass
  exact enq_foldl_snd s.jobs.enum ([], s.pending)

/-- Claim C7: with concurrency 2 and three enqueued jobs, `start_queue`
moves jobs 0 and 1 to `Starting` and leaves job 2 `Queued`; consuming the
terminal completion of job 0's worker (status `Complete` then the finished
signal, whose handler runs an admission pass) moves job 2 to `Starting`
with no further user call. -/
theorem scenario_concurrency_two_three_jobs :
    statusesOf (startQueue 2 (addJob (addJob (addJob initState)))) =
      ["Starting", "Starting", "Queued"] ∧
    statusesOf (deliverComplete 2 ⟨0, 0, false, false⟩
        (startQueue 2 (addJob (addJob (addJob initState))))) =
      ["Complete", "Starting", "Starting"] := ⟨rfl, rfl⟩

lemma updJob_get? (f : JobRec → JobRec) : ∀ (k i : ℕ) (l : List JobRec),
    (updJob f k l).get? i = if i = k then (l.get? i).map f else l.get? i := by
  intro k i l
  induction l generalizing k i with
  | nil => simp [updJob]
  | cons j t ih =>
      cases k with
      | zero =>
          cases i with
          | zero => simp [updJob]
          | succ m => simp [updJob]
      | succ n =>
          cases i with
          | zero => simp [updJob]
          | succ m => simpa [updJob] using ih n m

/-- Setting the status of one job through `updJob` leaves every status
either unchanged or equal to the written constant. -/
lemma statusAt_updJob (c : String) (g : JobRec → JobRec)
    (hg : ∀ j, (g j).status = c) (k i : ℕ) (l : List JobRec) :
    ((updJob g k l).get? i).map JobRec.status = (l.get? i).map JobRec.status ∨
    ((updJob g k l).get? i).map JobRec.status = some c := by
  rw [updJob_get?]
  by_cases hik : i = k
  · rw [if_pos hik]
    cases hj : l.get? i with
    | none => left; simp
    | some j => right; simp [hg]
  · rw [if_neg hik]
    left
    rfl

lemma statusAt_onProgress (k : ℕ) (perc : ℤ) (sp et : String) (s : SchedState)
    (i : ℕ) : statusAt (onProgress k perc sp et s) i = statusAt s i := by
  unfold onProgress statusAt
  split
  · simp only [updJob_get?]
    by_cases hik : i = k
    · rw [if_pos hik]
      cases hj : s.jobs.get? i with
      | none => simp
      | some j => simp
    · rw [if_neg hik]
  · rfl

lemma statusAt_onStatus (k : ℕ) (st : String) (s : SchedState) (i : ℕ) :
    statusAt (onStatus k st s) i = statusAt s i ∨
      statusAt (onStatus k st s) i = some st := by
  unfold onStatus statusAt
  split
  · exact statusAt_updJob st _ (fun j => rfl) k i s.jobs
  · left; rfl

lemma statusAt_fillGo (limit : ℕ) : ∀ (fuel : ℕ) (s : SchedState) (i : ℕ),
    statusAt (fillGo limit fuel s) i = statusAt s i ∨
      statusAt (fillGo limit fuel s) i = some "Starting" := by
  intro fuel
  induction fuel with
  | zero => intro s i; left; rfl
  | succ n ih =>
      intro s i
      simp only [fillGo]
      by_cases hl : s.active.length < limit
      · rw [if_pos hl]
        cases hp : s.pending with
        | nil => left; rfl
        | cons a rest =>
            rcases ih _ i with h | h
            · rw [h]
              exact statusAt_updJob "Starting" _ (fun j => rfl) a i s.jobs
            · right
              exact h
      · rw [if_neg hl]
        left
        rfl

lemma statusAt_onFinishedPre (k : ℕ) (success : Bool) (s : SchedState) (i : ℕ) :
    statusAt (onFinishedPre k success s) i = statusAt s i ∨
      statusAt (onFinishedPre k success s) i = some "Complete" ∨
      statusAt (onFinishedPre k success s) i = some "Failed/Stopped" := by
  simp only [onFinishedPre]
  split
  · rcases statusAt_updJob (if success then "Complete" else "Failed/Stopped")
      (fun j => { j with status := if success then "Complete" else "Failed/Stopped" })
      (fun j => rfl) k i s.jobs with h2 | h2
    · left
      exact h2
    · cases success with
      | true => right; left; exact h2
      | false => right; right; exact h2
  · left
    rfl

lemma statusAt_onFinished (limit k : ℕ) (success : Bool) (s : SchedState) (i : ℕ) :
    statusAt (onFinished limit k success s) i = statusAt s i ∨
      statusAt (onFinished limit k success s) i = some "Starting" ∨
      statusAt (onFinished limit k success s) i = some "Complete" ∨
      statusAt (onFinished limit k success s) i = some "Failed/Stopped" := by
  have hfg : statusAt (onFinished limit k success s) i =
        statusAt (onFinishedPre k success s) i ∨
      statusAt (onFinished limit k success s) i = some "Starting" :=
    statusAt_fillGo limit (onFinishedPre k success s).pending.length
      (onFinishedPre k success s) i
  rcases hfg with h | h
  · rw [h]
    rcases statusAt_onFinishedPre k success s i with h2 | h2 | h2
    · left; exact h2
    · right; right; left; exact h2
    · right; right; right; exact h2
  · right
    left
    exact h

/-- The status strings a worker can emit through the status signal:
`Starting` from the head of `run`, `Downloading`, `Merging / finalizing`
and `Error` from the hook, and `Complete`, `Stopped` or `Error: msg` from
the completion branches. -/
def workerEmittable (st : String) : Prop :=
  st = "Starting" ∨ st = "Downloading" ∨ st = "Merging / finalizing" ∨
    st = "Complete" ∨ st = "Stopped" ∨ st = "Error" ∨ ∃ m, st = "Error: " ++ m

lemma workerEmittable_ne_queued (st : String) (h : workerEmittable st) :
    st ≠ "Queued" := by
  rcases h with rfl | rfl | rfl | rfl | rfl | rfl | ⟨m, rfl⟩
  · decide
  · decide
  · decide
  · decide
  · decide
  · decide
  · exact errAppend_ne_queued m

lemma terminal_ne_queued (t : String)
    (h : t = "Stopped" ∨ List.isPrefixOf "Error".toList t.toList = true) :
    t ≠ "Queued" := by
  rcases h with rfl | h
  · decide
  · intro he
    rw [he] at h
    exact absurd h (by decide)

/-- Claim C8: a job whose status is terminal `Stopped` or `Error`-like is
never moved back to `Queued` by any operation other than the explicit
`start_queue` call: not by an admission pass (timer-driven or
event-driven), not by progress/status/finished deliveries (workers never
emit a `Queued` status), not by `stop_all`, and not by adding new jobs. -/
theorem no_automatic_requeue (limit i : ℕ) (s : SchedState) (t : String)
    (ht : statusAt s i = some t)
    (hterm : t = "Stopped" ∨ List.isPrefixOf "Error".toList t.toList = true) :
    statusAt (fillWorkers limit s) i ≠ some "Queued" ∧
    (∀ k perc sp et, statusAt (onProgress k perc sp et s) i ≠ some "Queued") ∧
    (∀ k st, workerEmittable st → statusAt (onStatus k st s) i ≠ some "Queued") ∧
    (∀ k success, statusAt (onFinished limit k success s) i ≠ some "Queued") ∧
    statusAt (stopAllOp s) i ≠ some "Queued" ∧
    statusAt (addJob s) i ≠ some "Queued" ∧
    (∀ wid, statusAt (markDone wid s) i ≠ some "Queued") := by
  have hne : t ≠ "Queued" := terminal_ne_queued t hterm
  have holdne : statusAt s i ≠ some "Queued" := by
    rw [ht]
    intro he
    exact hne (Option.some.inj he)
  refine ⟨?_, ?_, ?_, ?_, ?_, ?_, ?_⟩
  · rcases statusAt_fillGo limit s.pending.length s i with h | h
    · have h2 : statusAt (fillWorkers limit s) i = statusAt s i := h
      rw [h2]
      exact holdne
    · have h2 : statusAt (fillWorkers limit s) i = some "Starting" := h
      rw [h2]
      simp
  · intro k perc sp et
    rw [statusAt_onProgress]
    exact holdne
  · intro k st hst
    rcases statusAt_onStatus k st s i with h | h
    · rw [h]; exact holdne
    · rw [h]
      intro he
      exact workerEmittable_ne_queued st hst (Option.some.inj he)
  · intro k success
    rcases statusAt_onFinished limit k success s i with h | h | h | h <;> rw [h]
    · exact holdne
    · simp
    · simp
    · simp
  · exact holdne
  · unfold addJob statusAt
    have hlt : i < s.jobs.length := by
      by_contra hge
      rw [statusAt, List.get?_eq_none.2 (Nat.le_of_not_lt hge)] at ht
      cases ht
    rw [List.get?_eq_getElem?, List.getElem?_append_left hlt, ← List.get?_eq_getElem?]
    exact holdne
  · intro wid
    exact holdne

/-- Witness for C8: a single job already `Stopped`, all handlers applied. -/
theorem no_automatic_requeue_witness :
    statusAt (fillWorkers 2 ⟨[⟨"Stopped", 0, none, none⟩], [], [], [], 0⟩) 0 ≠
      some "Queued" :=
  (no_automatic_requeue 2 0 ⟨[⟨"Stopped", 0, none, none⟩], [], [], [], 0⟩ "Stopped"
    rfl (Or.inl rfl)).1

/-- Claim C9 (amended): for an event index out of range of the jobs list,
`on_progress` and `on_status` return with no state change, and
`on_finished` removes the index from the active dict but still runs its
unconditional admission pass, which may start pending jobs; no
out-of-bounds access occurs in any handler. -/
theorem oob_index_guarded (limit : ℕ) (s : SchedState) (i : ℕ)
    (h : s.jobs.length ≤ i) :
    (∀ perc sp et, onProgress i perc sp et s = s) ∧
    (∀ st, onStatus i st s = s) ∧
    (∀ success, onFinished limit i success s =
        fillWorkers limit { s with active := eraseKey s.active i }) := by
  have hnot : ¬i < s.jobs.length := Nat.not_lt.2 h
  refine ⟨?_, ?_, ?_⟩
  · intro perc sp et
    simp only [onProgress]
    rw [if_neg hnot]
  · intro st
    simp only [onStatus]
    rw [if_neg hnot]
  · intro success
    simp only [onFinished, onFinishedPre]
    rw [if_neg hnot]

/-- Witness for C9: index 5 against a single-job state. -/
theorem oob_index_guarded_witness :
    onProgress 5 42 "1 MB/s" "3s" ⟨[freshJob], [], [], [], 0⟩ =
      ⟨[freshJob], [], [], [], 0⟩ :=
  (oob_index_guarded 1 ⟨[freshJob], [], [], [], 0⟩ 5 (by decide)).1 42 "1 MB/s" "3s"

/-- A state with one pending queued job, used by the C9 counterexample. -/
def oobState : SchedState := ⟨[freshJob], [0], [], [], 0⟩

/-- Claim C9 counterexample: the finished handler on the out-of-range
index 5 does not leave the state unchanged apart from removing the index:
its admission pass starts the pending job — the job list's status changes
to `Starting` and the active dict gains an entry. -/
theorem oob_finished_backfill_ce :
    oobState.jobs.length ≤ 5 ∧
    statusAt (onFinished 1 5 true oobState) 0 = some "Starting" ∧
    (onFinished 1 5 true oobState).active = [(0, 0)] ∧
    oobState.active = [] := by
  exact ⟨by decide, rfl, rfl, rfl⟩

lemma dictInsert_length_le : ∀ (l : List (ℕ × ℕ)) (k v : ℕ),
    (dictInsert l k v).length ≤ l.length + 1 := by
  intro l
  induction l with
  | nil => intro k v; simp [dictInsert]
  | cons p t ih =>
      intro k v
      cases p with
      | mk a b =>
          simp only [dictInsert]
          split
          · simp
          · simpa using Nat.succ_le_succ (ih k v)

lemma eraseKey_length_le : ∀ (l : List (ℕ × ℕ)) (k : ℕ),
    (eraseKey l k).length ≤ l.length := by
  intro l
  induction l with
  | nil => intro k; simp [eraseKey]
  | cons p t ih =>
      intro k
      cases p with
      | mk a b =>
          simp only [eraseKey]
          split
          · simp
          · simpa using Nat.succ_le_succ (ih k)

lemma onProgress_active (k : ℕ) (perc : ℤ) (sp et : String) (s : SchedState) :
    (onProgress k perc sp et s).active = s.active := by
  simp only [onProgress]
  split <;> rfl

lemma onStatus_active (k : ℕ) (st : String) (s : SchedState) :
    (onStatus k st s).active = s.active := by
  simp only [onStatus]
  split <;> rfl

lemma onFinishedPre_active (k : ℕ) (success : Bool) (s : SchedState) :
    (onFinishedPre k success s).active = eraseKey s.active k := by
  simp only [onFinishedPre]
  split <;> rfl

lemma markDone_active (wid : ℕ) (s : SchedState) :
    (markDone wid s).active = s.active := rfl

/-- The fill loop never grows the active dict beyond the limit: a worker
is registered only while the dict is strictly below the limit, and one
registration grows the dict by at most one entry. -/
lemma fillGo_active_le (limit : ℕ) : ∀ (fuel : ℕ) (s : SchedState),
    s.active.length ≤ limit → (fillGo limit fuel s).active.length ≤ limit := by
  intro fuel
  induction fuel with
  | zero => intro s h; exact h
  | succ n ih =>
      intro s h
      simp only [fillGo]
      by_cases hl : s.active.length < limit
      · rw [if_pos hl]
        cases hp : s.pending with
        | nil => exact h
        | cons a rest =>
            apply ih
            calc (dictInsert s.active a s.nextW).length
                ≤ s.active.length + 1 := dictInsert_length_le _ _ _
              _ ≤ limit := hl

      · rw [if_neg hl]
        exact h

/-- Claim C1 (amended): along every reachable execution at a fixed
concurrency limit `N`, the number of workers registered in the
active-worker dict never exceeds `N` — each admission pass spawns only
while the dict is strictly below the limit.  The original claim, that the
number of jobs in a running status never exceeds `N`, fails: see the
counterexample, where a duplicate pending entry makes a second worker
overwrite the first one's dict slot, and the orphaned worker keeps its job
in `Downloading` while the dict is free to fill up to `N` again. -/
theorem active_pool_bounded (limit : ℕ) (s : SchedState)
    (h : reachable limit s) : s.active.length ≤ limit := by
  induction h with
  | refl => exact Nat.zero_le limit
  | tail hr hstep ih =>
      cases hstep with
      | add => exact ih
      | start => exact fillGo_active_le limit _ _ ih
      | timer hp => exact fillGo_active_le limit _ _ ih
      | stopAll => exact ih
      | starting w hw hd =>
          rw [onStatus_active]
          exact ih
      | downloading w hw hd hs perc sp et =>
          simp only [deliverDownloading]
          rw [onStatus_active, onProgress_active]
          exact ih
      | mergingPhase w hw hd hs =>
          rw [onStatus_active]
          exact ih
      | errorPhase w hw hd hs =>
          rw [onStatus_active]
          exact ih
      | completeEnd w hw hd hs =>
          simp only [deliverComplete]
          rw [markDone_active]
          simp only [onFinished, fillWorkers]
          apply fillGo_active_le
          rw [onFinishedPre_active, onStatus_active, onProgress_active]
          exact le_trans (eraseKey_length_le _ _) ih
      | stoppedEnd w hw hd hs =>
          simp only [deliverStopped]
          rw [markDone_active]
          simp only [onFinished, fillWorkers]
          apply fillGo_active_le
          rw [onFinishedPre_active, onStatus_active]
          exact le_trans (eraseKey_length_le _ _) ih
      | errorEnd w hw hd msg =>
          simp only [deliverErrorEnd]
          rw [markDone_active]
          simp only [onFinished, fillWorkers]
          apply fillGo_active_le
          rw [onFinishedPre_active, onStatus_active]
          exact le_trans (eraseKey_length_le _ _) ih

/-- Witness for C1: the bound applied at the initial state. -/
theorem active_pool_bounded_witness : initState.active.length ≤ 2 :=
  active_pool_bounded 2 initState Relation.ReflTransGen.refl

/-- C1 counterexample trace, at concurrency 2.  Three jobs are added and
`start_queue` is pressed twice, leaving a duplicate pending entry for job
2; as workers 0 and 1 complete, job 2 is admitted twice — the second
admission overwrites the dict slot of the first worker, orphaning it.
When that first worker's finished signal arrives it deletes the slot of
the second worker, which keeps running and later reports `Downloading`
while the dict is empty.  Two fresh jobs then fill the dict again. -/
def ceT0 : SchedState := addJob (addJob (addJob initState))

/-- See `ceT0`. -/
def ceT1 : SchedState := startQueue 2 ceT0

/-- See `ceT0`. -/
def ceT2 : SchedState := startQueue 2 ceT1

/-- The worker spawned for job 0. -/
def ceW0 : Worker := ⟨0, 0, false, false⟩

/-- The worker spawned for job 1. -/
def ceW1 : Worker := ⟨1, 1, false, false⟩

/-- The first worker spawned for job 2. -/
def ceW2 : Worker := ⟨2, 2, false, false⟩

/-- The second worker spawned for job 2 (the duplicate admission). -/
def ceW3 : Worker := ⟨3, 2, false, false⟩

/-- See `ceT0`. -/
def ceT3 : SchedState := deliverComplete 2 ceW0 ceT2

/-- See `ceT0`. -/
def ceT4 : SchedState := deliverComplete 2 ceW1 ceT3

/-- See `ceT0`. -/
def ceT5 : SchedState := deliverComplete 2 ceW2 ceT4

/-- See `ceT0`. -/
def ceT6 : SchedState := deliverDownloading ceW3 50 "1 MB/s" "10s" ceT5

/-- See `ceT0`. -/
def ceT7 : SchedState := addJob (addJob ceT6)

/-- See `ceT0`. -/
def ceT8 : SchedState := startQueue 2 ceT7

/-- Claim C1 counterexample: a reachable state at concurrency limit 2 in
which three jobs are simultaneously in a running status (`Downloading`,
`Starting`, `Starting`), exceeding the limit. -/
theorem running_jobs_exceed_limit_ce :
    reachable 2 ceT8 ∧ runningCount ceT8 = 3 ∧ 2 < runningCount ceT8 := by
  refine ⟨?_, by decide, by decide⟩
  have h0 : reachable 2 ceT0 :=
    Relation.ReflTransGen.tail
      (Relation.ReflTransGen.tail
        (Relation.ReflTransGen.tail Relation.ReflTransGen.refl (Step.add initState))
        (Step.add (addJob initState)))
      (Step.add (addJob (addJob initState)))
  have h1 : reachable 2 ceT1 := h0.tail (Step.start ceT0)
  have h2 : reachable 2 ceT2 := h1.tail (Step.start ceT1)
  have h3 : reachable 2 ceT3 := h2.tail (Step.completeEnd ceT2 ceW0 (by decide) rfl rfl)
  have h4 : reachable 2 ceT4 := h3.tail (Step.completeEnd ceT3 ceW1 (by decide) rfl rfl)
  have h5 : reachable 2 ceT5 := h4.tail (Step.completeEnd ceT4 ceW2 (by decide) rfl rfl)
  have h6 : reachable 2 ceT6 :=
    h5.tail (Step.downloading ceT5 ceW3 (by decide) rfl rfl 50 "1 MB/s" "10s")
  have h7 : reachable 2 ceT7 := (h6.tail (Step.add ceT6)).tail (Step.add (addJob ceT6))
  exact h7.tail (Step.start ceT7)

end YtDl
